import Mathlib

/-!
Verification of the header-list / header-view component and the
multipart/form-data streaming parser of this repository, against its
natural-language specification.

The JavaScript source is shallowly embedded:

* JavaScript strings are Lean `String`s; byte buffers are `List Nat`
  (one `Nat` per byte).
* A JavaScript value that may be `undefined` is an `Option`.
* Code that can throw returns `Except`; mutating methods on an object that
  can throw mid-way return `Option Err × State` so that the state of the
  object at the moment the exception escapes stays observable.

A central fact of the header-list source: the class `HeadersList` stores its
entries in the plain array field `this.backer`, but `append`, `get` and
`sortAndCombine` read `this[idx]`.  `HeadersList` does not extend `Array`
and defines no numeric index properties, so every such read evaluates to
`undefined`.  The embedding models those reads faithfully as `undefined`
(`Option.none`) rather than as reads of `backer`.
-/

/-- ASCII lower-casing of one character, as `String.prototype.toLowerCase`
acts on the ASCII range (all inputs of interest are ASCII). -/
def asciiLowerChar (c : Char) : Char :=
  if 65 ≤ c.toNat ∧ c.toNat ≤ 90 then Char.ofNat (c.toNat + 32) else c

/-- ASCII lower-casing of a string (`name.toLowerCase()` in the source). -/
def asciiLower (s : String) : String :=
  ⟨s.data.map asciiLowerChar⟩

/-- Bytes of an ASCII string, the contents of `Buffer.from(s)`. -/
def strBytes (s : String) : List Nat :=
  s.data.map Char.toNat

/-- First index at which `needle` occurs as a contiguous sublist of `hay`
(`Buffer.prototype.indexOf` with offset 0), `none` for JavaScript's `-1`. -/
def subIndex (needle : List Nat) : List Nat → Option Nat
  | [] => if needle.isPrefixOf [] then some 0 else none
  | b :: t =>
      if needle.isPrefixOf (b :: t) then some 0
      else (subIndex needle t).map (fun j => j + 1)

/-- `hay.indexOf(needle, start)` for byte buffers: first occurrence at an
index that is at least `start`. -/
def indexOfFrom (needle hay : List Nat) (start : Nat) : Option Nat :=
  (subIndex needle (hay.drop start)).map (fun j => j + start)

/-- The end index actually used by `buf.subarray(0, e)` when `e` is the
possibly-negative JavaScript number `boundaryIndex - 2`: a negative end
counts from the end of the buffer, and the result is clamped to the
buffer's range. -/
def jsEndIndex (len : Nat) (e : Int) : Nat :=
  if e < 0 then (Int.ofNat len + e).toNat else min e.toNat len

/-- `true` on `Except.ok`, the observable "did not throw". -/
def exceptIsOk : Except ε α → Bool
  | .ok _ => true
  | .error _ => false

/-! ## HeadersList (lib/cookie-store/cookie-change-event.js, second document) -/

/-- The only runtime error the header-list code can raise: a `TypeError`
from calling a method on `undefined`. -/
inductive HErr
  | typeError
deriving DecidableEq, Repr

/-- `class HeadersList { constructor (init) { this.backer = init ? init.slice() : [] } }`.
A slot of the flat backing array holds a JavaScript string or `undefined`
(`Option.none`); `undefined` slots are produced by the `this[idx]` read in
`append`. -/
structure HeadersList where
  backer : List (Option String)
deriving DecidableEq, Repr

/-- `new HeadersList()` — the empty list. -/
def HeadersList.empty : HeadersList := ⟨[]⟩

/-- The scan loop of `HeadersList.contains` on the suffix of the backing
array that starts at the loop's starting index:
`for (let i = start; i < len; i += 2) { const key = this.backer[i].toLowerCase(); if (key === name) return i }`.
Reading `.toLowerCase` of an `undefined` slot throws a `TypeError`.
The returned index is relative to the suffix. -/
def containsOff (lname : String) : List (Option String) → Except HErr (Option Nat)
  | [] => .ok none
  | [slot] =>
      match slot with
      | none => .error .typeError
      | some k => if asciiLower k = lname then .ok (some 0) else .ok none
  | slot :: _ :: rest =>
      match slot with
      | none => .error .typeError
      | some k =>
          if asciiLower k = lname then .ok (some 0)
          else (containsOff lname rest).map (fun r => r.map (fun j => j + 2))

/-- `HeadersList.contains(name, startingIndex = 0)`: lower-case the name,
return `-1` (`none`) when the starting index lies beyond the array, else
scan every second slot from the starting index. -/
def HeadersList.contains (hl : HeadersList) (name : String) (startingIndex : Nat) :
    Except HErr (Option Nat) :=
  if startingIndex > hl.backer.length then .ok none
  else (containsOff (asciiLower name) (hl.backer.drop startingIndex)).map
    (fun r => r.map (fun j => j + startingIndex))

/-- `HeadersList.clear()` — `this.backer.length = 0`. -/
def HeadersList.clear (_hl : HeadersList) : HeadersList := ⟨[]⟩

/-- `HeadersList.append(name, value)`.  The source computes
`idx = this.contains(name)` and, when a match exists, rewrites
`name = this[idx]`.  The entries live in `this.backer`, so `this[idx]` is
an absent index property of the object and evaluates to `undefined`; the
push then stores `undefined` as the new pair's name. -/
def HeadersList.append (hl : HeadersList) (name value : String) :
    Option HErr × HeadersList :=
  match hl.contains name 0 with
  | .error e => (some e, hl)
  | .ok idx =>
      let newName : Option String :=
        match idx with
        | some _ => none
        | none => some name
      (none, ⟨hl.backer ++ [newName, some value]⟩)

/-- The `while (index !== -1)` loop of `HeadersList.delete`: splice two
slots out at the current index (`take i ++ drop (i + 2)`, which removes
nothing when `i` is not below the length, exactly as `splice` does), then
rescan from that index.  The fuel argument only bounds the recursion for
Lean; the caller passes `backer.length + 1` and every iteration shortens
the array by two (or ends the loop), so the bound is never attained. -/
def deleteGo (name : String) : Nat → HeadersList → Option Nat → Option HErr × HeadersList
  | _, hl, none => (none, hl)
  | 0, hl, some _ => (none, hl)
  | fuel + 1, hl, some i =>
      match HeadersList.contains ⟨hl.backer.take i ++ hl.backer.drop (i + 2)⟩ name i with
      | .error e => (some e, ⟨hl.backer.take i ++ hl.backer.drop (i + 2)⟩)
      | .ok next => deleteGo name fuel ⟨hl.backer.take i ++ hl.backer.drop (i + 2)⟩ next

/-- `HeadersList.delete(name)`: remove every case-insensitively matching
pair.  When an exception escapes the loop, the partially spliced state is
what the object retains. -/
def HeadersList.delete (hl : HeadersList) (name : String) : Option HErr × HeadersList :=
  match hl.contains name 0 with
  | .error e => (some e, hl)
  | .ok idx => deleteGo name (hl.backer.length + 1) hl idx

/-- `HeadersList.set(name, value)` — delete all matches, then append. -/
def HeadersList.set (hl : HeadersList) (name value : String) :
    Option HErr × HeadersList :=
  match hl.delete name with
  | (some e, hl') => (some e, hl')
  | (none, hl') => hl'.append name value

/-- The accumulation loop of `HeadersList.get`, entered at a match index
`i` and given the suffix `backer.drop i`.  Each iteration appends
`this[index + 1]` to the accumulator — an absent index property of the
object, hence `undefined`, which string concatenation renders as
`"undefined"` — and then rescans from `index + 2`; the suffix of the next
match is `(rest.drop 1).drop j` for the relative match index `j`.  The
fuel argument of `getGoS` only bounds the recursion for Lean; the caller
passes `backer.length + 1` and every iteration shortens the suffix by at
least two, so the bound is never attained. -/
def appendUndef (acc : String) : String :=
  if acc.length = 0 then acc ++ "undefined" else acc ++ ", " ++ "undefined"

/-- The loop itself; see `appendUndef` for one accumulation step. -/
def getGoS (lname : String) : Nat → String → List (Option String) → Except HErr String
  | 0, acc, _ => .ok (appendUndef acc)
  | _ + 1, acc, [] => .ok (appendUndef acc)
  | fuel + 1, acc, _ :: rest =>
      match containsOff lname (rest.drop 1) with
      | .error e => .error e
      | .ok none => .ok (appendUndef acc)
      | .ok (some j) => getGoS lname fuel (appendUndef acc) ((rest.drop 1).drop j)

/-- `HeadersList.get(name)`: `null` (`none`) when nothing matches,
otherwise the accumulation loop starting at the first match. -/
def HeadersList.get (hl : HeadersList) (name : String) : Except HErr (Option String) :=
  match hl.contains name 0 with
  | .error e => .error e
  | .ok none => .ok none
  | .ok (some i) =>
      match getGoS (asciiLower name) (hl.backer.length + 1) "" (hl.backer.drop i) with
      | .error e => .error e
      | .ok s => .ok (some s)

/-- `HeadersList.has(name)` — `this.contains(name) !== -1`. -/
def HeadersList.has (hl : HeadersList) (name : String) : Except HErr Bool :=
  match hl.contains name 0 with
  | .error e => .error e
  | .ok idx => .ok idx.isSome

/-- Code-unit lexicographic comparison of two strings, the order induced by
the comparator `([a], [b]) => a > b ? 1 : a < b ? -1 : 0` of
`sortAndCombine`. -/
def charListLe : List Char → List Char → Bool
  | [], _ => true
  | _ :: _, [] => false
  | a :: as, b :: bs =>
      if a.toNat < b.toNat then true
      else if b.toNat < a.toNat then false
      else charListLe as bs

/-- Stable insertion into a sorted list of entries (equal keys keep their
original relative order, as `Array.prototype.sort` is stable). -/
def insertSorted (x : String × String) : List (String × String) → List (String × String)
  | [] => [x]
  | y :: t =>
      if charListLe y.1.data x.1.data then y :: insertSorted x t
      else x :: y :: t

/-- Ascending stable sort by key, the effect of
`Object.entries(headers).sort(...)`. -/
def sortEntries (l : List (String × String)) : List (String × String) :=
  l.foldl (fun acc x => insertSorted x acc) []

/-- `HeadersList.sortAndCombine()`.  The grouping loop reads
`const key = this[i].toLowerCase()` for `i = 0, 2, ...` — `this[i]` is an
absent index property of the object (the entries live in `this.backer`),
so the very first iteration on a non-empty backing array throws a
`TypeError`.  On an empty array the loop body never runs and the sorted
entries of the empty accumulator come back. -/
def HeadersList.sortAndCombine (hl : HeadersList) :
    Except HErr (List (String × String)) :=
  if 0 < hl.backer.length then .error .typeError
  else .ok (sortEntries [])

/-- The flat backing array produced by filling a list with the given
(name, value) pairs in order. -/
def flattenPairs : List (String × String) → List (Option String)
  | [] => []
  | (n, v) :: t => some n :: some v :: flattenPairs t

/-- The states a `HeadersList` can be put in by its constructor and public
operations (the second component of a mutator's result is the state the
object holds afterwards, also when the operation threw). -/
inductive HeadersList.Reachable : HeadersList → Prop
  | empty : HeadersList.Reachable ⟨[]⟩
  | fromPairs (ps : List (String × String)) : HeadersList.Reachable ⟨flattenPairs ps⟩
  | append (n v : String) {hl : HeadersList} :
      HeadersList.Reachable hl → HeadersList.Reachable (hl.append n v).2
  | set (n v : String) {hl : HeadersList} :
      HeadersList.Reachable hl → HeadersList.Reachable (hl.set n v).2
  | del (n : String) {hl : HeadersList} :
      HeadersList.Reachable hl → HeadersList.Reachable (hl.delete n).2
  | clear {hl : HeadersList} :
      HeadersList.Reachable hl → HeadersList.Reachable hl.clear

/-- A flat backing array that alternates name slots and value slots: it is
a sequence of two-slot pairs whose second slot is always a genuine string
value. -/
inductive Paired : List (Option String) → Prop
  | nil : Paired []
  | cons (n : Option String) (v : String) {t : List (Option String)} :
      Paired t → Paired (n :: some v :: t)

/-! ## Headers view (the `Headers` class wrapping a `HeadersList`) -/

/-- The guard modes of a header view. -/
inductive HGuard
  | guardNone
  | immutable
  | request
  | requestNoCors
  | response
deriving DecidableEq, Repr

/-- Errors a `Headers` method can raise: the `TypeError` thrown by
`webidl.errors.invalidArgument` for an illegal header name or value, the
`TypeError('immutable')` of the guard check, and an error escaping from the
underlying `HeadersList`. -/
inductive ViewErr
  | invalidArgument
  | immutableGuard
  | listError (e : HErr)
deriving DecidableEq, Repr

/-- `class Headers`: the owned header list and the guard. -/
structure Headers where
  list : HeadersList
  guard : HGuard
deriving DecidableEq, Repr

/-- `headerValueNormalize`: strip leading and trailing HTTP whitespace
(`\r`, `\n`, `\t`, space), the effect of
`value.replace(/^[\r\n\t ]+|[\r\n\t ]+$/g, '')`. -/
def headerValueNormalize (s : String) : String :=
  let ws : Char → Bool := fun c => c = '\r' ∨ c = '\n' ∨ c = '\t' ∨ c = ' '
  ⟨((s.data.dropWhile ws).reverse.dropWhile ws).reverse⟩

/-- `Headers.append(name, value)`.  The validity predicates
`isValidHeaderName` / `isValidHeaderValue` live outside this component
(lib/fetch/util.js) and are taken as parameters.  Order as in the source:
normalize the value, validate the name, validate the normalized value,
check the guard, then mutate the list.  The second component is the state
of the object after the call. -/
def Headers.append (vn vv : String → Bool) (h : Headers) (name value : String) :
    Option ViewErr × Headers :=
  let value := headerValueNormalize value
  if vn name = false then (some .invalidArgument, h)
  else if vv value = false then (some .invalidArgument, h)
  else if h.guard = .immutable then (some .immutableGuard, h)
  else
    match h.list.append name value with
    | (some e, l') => (some (.listError e), { h with list := l' })
    | (none, l') => (none, { h with list := l' })

/-- `Headers.set(name, value)` — same gate sequence as `append`, ending in
`HeadersList.set`. -/
def Headers.set (vn vv : String → Bool) (h : Headers) (name value : String) :
    Option ViewErr × Headers :=
  let value := headerValueNormalize value
  if vn name = false then (some .invalidArgument, h)
  else if vv value = false then (some .invalidArgument, h)
  else if h.guard = .immutable then (some .immutableGuard, h)
  else
    match h.list.set name value with
    | (some e, l') => (some (.listError e), { h with list := l' })
    | (none, l') => (none, { h with list := l' })

/-- `Headers.delete(name)`: validate the name, check the guard, return
early when the list does not contain the name, else delete. -/
def Headers.delete (vn : String → Bool) (h : Headers) (name : String) :
    Option ViewErr × Headers :=
  if vn name = false then (some .invalidArgument, h)
  else if h.guard = .immutable then (some .immutableGuard, h)
  else
    match h.list.has name with
    | .error e => (some (.listError e), h)
    | .ok false => (none, h)
    | .ok true =>
        match h.list.delete name with
        | (some e, l') => (some (.listError e), { h with list := l' })
        | (none, l') => (none, { h with list := l' })

/-! ## Multipart parser (lib/formdata/parser.js) -/

/-- `ParserState` from lib/formdata/constants. -/
inductive ParserState
  | Beginning
  | Headers
  | Body
  | Boundary
deriving DecidableEq, Repr

/-- The bytes of the `CRLF` constant `'\r\n'`. -/
def CRLF : List Nat := strBytes "\r\n"

/-- An event emitted by the parser, in emission order. -/
inductive FDEvent
  | boundary (payload : List Nat)
  | header (payload : List Nat)
  | body (payload : List Nat)
deriving DecidableEq, Repr

/-- Errors escaping `write`/`parse`: the `TypeError` of calling `indexOf`
on the absent `#lastBytes`, the `assert` failure in `parse`, and the fuel
bound of the embedding (the source recursion has no such bound; every
claim is settled at a fuel large enough that it is never hit). -/
inductive PErr
  | typeError
  | assertionError
  | fuel
deriving DecidableEq, Repr

/-- The parser object: its state, the two chunk queues, the boundary
marker fixed at construction, the optional rolling tail `#lastBytes`, and
the events emitted so far. -/
structure FormDataParser where
  state : ParserState
  currentChunk : List (List Nat)
  nextChunk : List (List Nat)
  boundary : List Nat
  lastBytes : Option (List Nat)
  events : List FDEvent
deriving DecidableEq, Repr

/-- `combineChunks` from lib/formdata/util.js: a single chunk is returned
as is, otherwise the chunks are concatenated. -/
def combineChunks (chunks : List (List Nat)) : List Nat :=
  if chunks.length = 1 then chunks.headD [] else chunks.flatten

/-- The update of `#lastBytes` at the top of the `Body` branch of `write`:
with no tail yet, a chunk without CRLF is pushed to the line queue and the
tail stays absent (`none` — the following `indexOf` on it then throws), a
chunk with CRLF becomes the tail; with a tail present the chunk is
concatenated onto it. -/
def updateTail (lastBytes : Option (List Nat)) (chunk : List Nat) :
    Option (List Nat) :=
  match lastBytes with
  | none => if (subIndex CRLF chunk).isSome then some chunk else none
  | some lb => some (lb ++ chunk)

/-- Decidable equality of `Except` results, for evaluating concrete runs. -/
instance {ε α : Type} [DecidableEq ε] [DecidableEq α] : DecidableEq (Except ε α) := fun a b =>
  match a, b with
  | .ok x, .ok y =>
      if h : x = y then .isTrue (by rw [h]) else .isFalse (by intro hc; cases hc; exact h rfl)
  | .error x, .error y =>
      if h : x = y then .isTrue (by rw [h]) else .isFalse (by intro hc; cases hc; exact h rfl)
  | .ok _, .error _ => .isFalse (by intro hc; cases hc)
  | .error _, .ok _ => .isFalse (by intro hc; cases hc)

mutual

/-- `FormDataParser.write(chunk)`.  In `Beginning`/`Boundary`/`Headers`
the newly written chunk — and only it — is scanned for CRLF (from offset 2
in `Boundary` state); without one the chunk is queued and the call
returns.  In `Body` the rolling tail is updated and scanned for the
boundary marker; the source reads `this.#lastBytes.indexOf(...)`
unconditionally, so when no tail exists (chunk without CRLF, which was
pushed to the line queue) a `TypeError` is thrown.  When the marker is
found at index `i` the tail is split at `subarray(0, i - 2)` (JavaScript
clamps a negative end index from the end of the buffer) and the rest,
starting at `i - 2`, is stashed for re-processing.  The parser state is
destructured up front; the source's `this.parse(this.#currentChunk)`
appears as a `parse` call on the updated state, whose queued current
chunks `parse` reads back. -/
def FormDataParser.write : Nat → FormDataParser → List Nat → Except PErr FormDataParser
  | 0, _, _ => .error .fuel
  | fuel + 1, ⟨st, cur, nxt, bnd, last, evs⟩, chunk =>
      match st with
      | .Beginning | .Boundary | .Headers =>
          match indexOfFrom CRLF chunk (if st = .Boundary then 2 else 0) with
          | none => .ok ⟨st, cur ++ [chunk], nxt, bnd, last, evs⟩
          | some crlf =>
              FormDataParser.parse fuel
                ⟨st, cur ++ [chunk.take crlf],
                  if (chunk.drop (crlf + 2)).length ≠ 0 then nxt ++ [chunk.drop (crlf + 2)]
                  else nxt,
                  bnd, last, evs⟩
      | .Body =>
          match updateTail last chunk with
          | none => .error .typeError
          | some t =>
              match subIndex bnd t with
              | none => .ok ⟨.Body, cur, nxt, bnd, some t, evs⟩
              | some i =>
                  FormDataParser.parse fuel
                    ⟨.Body, cur ++ [t.take (jsEndIndex t.length ((i : Int) - 2))],
                      nxt ++ [t.drop (t.take (jsEndIndex t.length ((i : Int) - 2))).length],
                      bnd, none, evs⟩

/-- `FormDataParser.parse(chunks)`: combine the queued chunks (the source
always passes `this.#currentChunk`, which this embedding reads directly
from the state), act by state (assert and emit `boundary`, emit `header`
or switch to `Body`, emit `body` and switch to `Boundary`), clear the
queues and synchronously re-write every stashed chunk. -/
def FormDataParser.parse : Nat → FormDataParser → Except PErr FormDataParser
  | 0, _ => .error .fuel
  | fuel + 1, ⟨st, cur, nxt, bnd, last, evs⟩ =>
      match st with
      | .Beginning =>
          if (subIndex bnd (combineChunks cur)).isSome = false then .error .assertionError
          else
            FormDataParser.writeAll fuel
              ⟨.Headers, [], [], bnd, last,
                evs ++ [FDEvent.boundary ((combineChunks cur).drop 2)]⟩ nxt
      | .Boundary =>
          if (subIndex bnd (combineChunks cur)).isSome = false then .error .assertionError
          else
            FormDataParser.writeAll fuel
              ⟨.Headers, [], [], bnd, last,
                evs ++ [FDEvent.boundary ((combineChunks cur).drop 4)]⟩ nxt
      | .Headers =>
          if (combineChunks cur).length ≠ 0 then
            FormDataParser.writeAll fuel
              ⟨.Headers, [], [], bnd, last, evs ++ [FDEvent.header (combineChunks cur)]⟩ nxt
          else
            FormDataParser.writeAll fuel ⟨.Body, [], [], bnd, last, evs⟩ nxt
      | .Body =>
          FormDataParser.writeAll fuel
            ⟨.Boundary, [], [], bnd, last, evs ++ [FDEvent.body (combineChunks cur)]⟩ nxt

/-- The `for (const nextChunk of next) this.write(nextChunk)` loop at the
end of each `parse` branch. -/
def FormDataParser.writeAll : Nat → FormDataParser → List (List Nat) → Except PErr FormDataParser
  | _, p, [] => .ok p
  | 0, _, _ :: _ => .error .fuel
  | fuel + 1, p, c :: cs =>
      match FormDataParser.write fuel p c with
      | .error e => .error e
      | .ok p' => FormDataParser.writeAll fuel p' cs

end

/-- A structured MIME type: essence parts and parameters.

Modelled from the spec: the content-type parser consumed by the multipart
parser (`parseMIMEType` in lib/fetch/dataURL.js, whose source is not part
of this component) "given a content-type string, returns a structured
{type, subtype, parameters} or a failure sentinel". -/
structure MimeType where
  type : String
  subtype : String
  parameters : List (String × String)
deriving DecidableEq, Repr

/-- Split a character list at the first occurrence of `sep`; `none` when
`sep` does not occur. -/
def splitFirst (sep : Char) : List Char → Option (List Char × List Char)
  | [] => none
  | c :: t =>
      if c = sep then some ([], t)
      else (splitFirst sep t).map (fun q => (c :: q.1, q.2))

/-- Split a character list at every occurrence of `sep`. -/
def splitAll (sep : Char) : List Char → List (List Char)
  | [] => [[]]
  | c :: t =>
      if c = sep then [] :: splitAll sep t
      else
        match splitAll sep t with
        | [] => [[c]]
        | h :: r => (c :: h) :: r

/-- Drop leading and trailing spaces of a character list. -/
def trimSpaces (l : List Char) : List Char :=
  ((l.dropWhile (fun c => c = ' ')).reverse.dropWhile (fun c => c = ' ')).reverse

/-- Modelled from the spec: the parameter section of a content type is a
`;`-separated list of `key=value` items; keys are taken up to the first
`=` with surrounding spaces removed, items without `=` are dropped. -/
def parseParams (l : List Char) : List (String × String) :=
  (splitAll ';' l).filterMap fun piece =>
    match splitFirst '=' piece with
    | none => none
    | some (k, v) => some (⟨trimSpaces k⟩, ⟨v⟩)

/-- Modelled from the spec: `parseMIMEType` splits the input at the first
`/` into the type and the rest, and the rest at the first `;` into the
subtype and the parameter section; it fails when there is no `/` or the
type or subtype is empty. -/
def parseMIMEType (s : String) : Option MimeType :=
  match splitFirst '/' s.data with
  | none => none
  | some (ty, rest) =>
      match splitFirst ';' rest with
      | none =>
          if ty.isEmpty ∨ rest.isEmpty then none
          else some ⟨⟨ty⟩, ⟨rest⟩, []⟩
      | some (sub, paramsPart) =>
          if ty.isEmpty ∨ sub.isEmpty then none
          else some ⟨⟨ty⟩, ⟨sub⟩, parseParams paramsPart⟩

/-- First-match lookup in a parameter list (`parameters.get(k)` after
`parameters.has(k)`; the mime parameter map keeps the first occurrence of
a key). -/
def paramsGet (ps : List (String × String)) (k : String) : Option String :=
  match ps.find? (fun p => p.1 == k) with
  | some p => some p.2
  | none => none

/-- The constructor errors of `FormDataParser`, one per `throw` site:
the `startsWith('multipart/form-data')` rejection, the MIME parse failure,
the essence check, and the missing boundary parameter.  All are
`TypeError`s in the source. -/
inductive CtorErr
  | notMultipart
  | parseFailure
  | badEssence
  | noBoundary
deriving DecidableEq, Repr

/-- A freshly constructed parser for the given boundary parameter:
state `Beginning`, empty queues, no rolling tail,
`#boundary = Buffer.from('--' + boundary)`. -/
def FormDataParser.initial (boundaryParam : String) : FormDataParser :=
  { state := .Beginning
    currentChunk := []
    nextChunk := []
    boundary := strBytes ("--" ++ boundaryParam)
    lastBytes := none
    events := [] }

/-- `new FormDataParser(header)` (the header string is assumed to be
already coerced by the out-of-scope webidl ByteString conversion): reject
a header that does not start with the literal `multipart/form-data`, then
parse it as a MIME type, check the essence, and require a `boundary`
parameter. -/
def FormDataParser.create (header : String) : Except CtorErr FormDataParser :=
  if ("multipart/form-data".data.isPrefixOf header.data) = false then
    .error .notMultipart
  else
    match parseMIMEType header with
    | none => .error .parseFailure
    | some m =>
        if m.type ≠ "multipart" ∨ m.subtype ≠ "form-data" then .error .badEssence
        else
          match paramsGet m.parameters "boundary" with
          | none => .error .noBoundary
          | some b => .ok (FormDataParser.initial b)

/-- Feed a sequence of chunks to the parser with one `write` call per
chunk (each call gets the full fuel budget, as the source has no fuel). -/
def feedChunks (fuel : Nat) (p : FormDataParser) :
    List (List Nat) → Except PErr FormDataParser
  | [] => .ok p
  | c :: cs =>
      match FormDataParser.write fuel p c with
      | .error e => .error e
      | .ok p' => feedChunks fuel p' cs

/-- Construct a parser from the given content-type header, feed it the
given chunks, and observe the emitted events; `none` when construction or
some write throws. -/
def fdpEvents (header : String) (fuel : Nat) (chunks : List (List Nat)) :
    Option (List FDEvent) :=
  match FormDataParser.create header with
  | .error _ => none
  | .ok p0 =>
      match feedChunks fuel p0 chunks with
      | .error _ => none
      | .ok p => some p.events

/-- Construct a parser from the given content-type header and feed it the
given chunks, observing the full final parser state. -/
def fdpAfter (header : String) (fuel : Nat) (chunks : List (List Nat)) :
    Option FormDataParser :=
  match FormDataParser.create header with
  | .error _ => none
  | .ok p0 =>
      match feedChunks fuel p0 chunks with
      | .error _ => none
      | .ok p => some p

/-- The `Body`-state step of `write` as the specification describes it:
identical to the source's `Body` branch except that the stashed remainder
is "a remainder starting at the boundary marker", i.e. the tail from the
boundary index `i` itself rather than from `i - 2`.  Used to compare the
described behavior against the source's. -/
def writeBodyClaim : Nat → FormDataParser → List Nat → Except PErr FormDataParser
  | 0, _, _ => .error .fuel
  | fuel + 1, ⟨_st, cur, nxt, bnd, last, evs⟩, chunk =>
      match updateTail last chunk with
      | none => .error .typeError
      | some t =>
          match subIndex bnd t with
          | none => .ok ⟨.Body, cur, nxt, bnd, some t, evs⟩
          | some i =>
              FormDataParser.parse fuel
                ⟨.Body, cur ++ [t.take (jsEndIndex t.length ((i : Int) - 2))],
                  nxt ++ [t.drop i], bnd, none, evs⟩

/-! ## Helper lemmas -/

theorem subIndex_le {n : List Nat} :
    ∀ {h : List Nat} {i : Nat}, subIndex n h = some i → i ≤ h.length := by
  intro h
  induction h with
  | nil =>
      intro i hi
      simp only [subIndex] at hi
      split at hi
      · injection hi with h0
        omega
      · exact absurd hi (by simp)
  | cons b t ih =>
      intro i hi
      simp only [subIndex] at hi
      split at hi
      · injection hi with h0
        simp only [List.length_cons]
        omega
      · rcases hmap : subIndex n t with _ | j
        · rw [hmap] at hi
          simp at hi
        · rw [hmap] at hi
          simp at hi
          have := ih hmap
          simp only [List.length_cons]
          omega

theorem subIndex_isPrefixOf {n : List Nat} :
    ∀ {h : List Nat} {i : Nat}, subIndex n h = some i → n.isPrefixOf (h.drop i) = true := by
  intro h
  induction h with
  | nil =>
      intro i hi
      simp only [subIndex] at hi
      split at hi
      · injection hi with h0
        subst h0
        assumption
      · exact absurd hi (by simp)
  | cons b t ih =>
      intro i hi
      simp only [subIndex] at hi
      split at hi
      · injection hi with h0
        subst h0
        assumption
      · rcases hmap : subIndex n t with _ | j
        · rw [hmap] at hi
          simp at hi
        · rw [hmap] at hi
          simp at hi
          subst hi
          simpa using ih hmap

theorem containsOff_ok {lname : String} {s : List (Option String)} :
    ∀ {j : Nat}, containsOff lname s = .ok (some j) → j % 2 = 0 ∧ j < s.length := by
  induction s using containsOff.induct lname with
  | case1 =>
      intro j hj
      simp [containsOff] at hj
  | case2 =>
      intro j hj
      simp [containsOff] at hj
  | case3 k hk =>
      intro j hj
      simp [containsOff, hk] at hj
      simp only [List.length_cons, List.length_nil]
      omega
  | case4 k hk =>
      intro j hj
      simp [containsOff, hk] at hj
  | case5 hd rest =>
      intro j hj
      simp [containsOff] at hj
  | case6 hd rest k hk =>
      intro j hj
      simp [containsOff, hk] at hj
      simp only [List.length_cons, List.length_nil]
      omega
  | case7 hd rest k hk ih =>
      intro j hj
      simp only [containsOff, if_neg hk] at hj
      rcases hmap : containsOff lname rest with e | r
      · rw [hmap] at hj
        simp [Except.map] at hj
      · rw [hmap] at hj
        rcases r with _ | j'
        · simp [Except.map] at hj
        · simp [Except.map] at hj
          have := @ih j' (by rw [hmap])
          simp only [List.length_cons]
          omega

theorem Paired.append_pair {l : List (Option String)} (hp : Paired l)
    (n : Option String) (v : String) : Paired (l ++ [n, some v]) := by
  induction hp with
  | nil => exact Paired.cons n v Paired.nil
  | cons n' v' hpt ih => exact Paired.cons n' v' ih

theorem Paired.splice {l : List (Option String)} (hp : Paired l) :
    ∀ i : Nat, i % 2 = 0 → Paired (l.take i ++ l.drop (i + 2)) := by
  induction hp with
  | nil =>
      intro i _
      simp [Paired.nil]
  | cons n v hpt ih =>
      intro i hi
      match i, hi with
      | 0, _ =>
          simpa using hpt
      | i'' + 2, hi'' =>
          have : Paired (List.take i'' _ ++ List.drop (i'' + 2) _) := ih i'' (by omega)
          simpa using Paired.cons n v this

theorem Paired.length_even {l : List (Option String)} (hp : Paired l) :
    l.length % 2 = 0 := by
  induction hp with
  | nil => simp
  | cons n v hpt ih =>
      simp only [List.length_cons]
      omega

theorem Paired.odd_isSome {l : List (Option String)} (hp : Paired l) :
    ∀ i (hi : i < l.length), i % 2 = 1 → (l.get ⟨i, hi⟩).isSome = true := by
  induction hp with
  | nil =>
      intro i hi
      simp at hi
  | cons n v hpt ih =>
      intro i hi hodd
      match i with
      | 0 => omega
      | 1 => simp
      | i'' + 2 =>
          simp only [List.length_cons] at hi
          simpa using ih i'' (by omega) (by omega)

theorem paired_flattenPairs (ps : List (String × String)) : Paired (flattenPairs ps) := by
  induction ps with
  | nil => exact Paired.nil
  | cons p t ih =>
      exact Paired.cons (some p.1) p.2 ih

theorem contains_ok_bounds {hl : HeadersList} {name : String} {s j : Nat}
    (h : hl.contains name s = .ok (some j)) :
    s ≤ j ∧ j < hl.backer.length ∧ (j - s) % 2 = 0 := by
  unfold HeadersList.contains at h
  split at h
  · simp at h
  · rcases hc : containsOff (asciiLower name) (hl.backer.drop s) with e | r
    · rw [hc] at h
      simp [Except.map] at h
    · rw [hc] at h
      rcases r with _ | j'
      · simp [Except.map] at h
      · simp [Except.map] at h
        have hb := @containsOff_ok (asciiLower name) (hl.backer.drop s) j' hc
        simp only [List.length_drop] at hb
        omega

theorem deleteGo_paired (name : String) :
    ∀ (fuel : Nat) (hl : HeadersList) (idx : Option Nat), Paired hl.backer →
      (∀ j, idx = some j → j % 2 = 0) → Paired ((deleteGo name fuel hl idx).2).backer := by
  intro fuel hl idx
  induction fuel, hl, idx using deleteGo.induct name with
  | case1 fuel hl =>
      intro hp _
      simpa [deleteGo] using hp
  | case2 hl i =>
      intro hp _
      simpa [deleteGo] using hp
  | case3 fuel hl i e herr =>
      intro hp hpar
      have hp' : Paired (hl.backer.take i ++ hl.backer.drop (i + 2)) :=
        hp.splice i (hpar i rfl)
      simpa [deleteGo, herr] using hp'
  | case4 fuel hl i idx hok ih =>
      intro hp hpar
      have hp' : Paired (hl.backer.take i ++ hl.backer.drop (i + 2)) :=
        hp.splice i (hpar i rfl)
      have hnext : ∀ j, idx = some j → j % 2 = 0 := by
        intro j hj
        subst hj
        have hb := contains_ok_bounds hok
        have := hpar i rfl
        omega
      simpa [deleteGo, hok] using ih hp' hnext

theorem append_paired {hl : HeadersList} (hp : Paired hl.backer) (n v : String) :
    Paired ((hl.append n v).2).backer := by
  unfold HeadersList.append
  rcases hc : hl.contains n 0 with e | idx
  · exact hp
  · exact hp.append_pair _ v

theorem delete_paired {hl : HeadersList} (hp : Paired hl.backer) (n : String) :
    Paired ((hl.delete n).2).backer := by
  unfold HeadersList.delete
  rcases hc : hl.contains n 0 with e | idx
  · exact hp
  · refine deleteGo_paired n (hl.backer.length + 1) hl idx hp ?_
    intro j hj
    subst hj
    have := contains_ok_bounds hc
    omega

theorem set_paired {hl : HeadersList} (hp : Paired hl.backer) (n v : String) :
    Paired ((hl.set n v).2).backer := by
  unfold HeadersList.set
  rcases hd : hl.delete n with ⟨oe, hl'⟩
  have hp' : Paired hl'.backer := by
    have := delete_paired hp n
    rw [hd] at this
    exact this
  rcases oe with _ | e
  · exact append_paired hp' n v
  · exact hp'

theorem reachable_paired {hl : HeadersList} (h : hl.Reachable) : Paired hl.backer := by
  induction h with
  | empty => exact Paired.nil
  | fromPairs ps => exact paired_flattenPairs ps
  | append n v _ ih => exact append_paired ih n v
  | set n v _ ih => exact set_paired ih n v
  | del n _ ih => exact delete_paired ih n
  | clear _ _ => exact Paired.nil

theorem combineChunks_single (c : List Nat) : combineChunks [c] = c := by
  simp [combineChunks]

theorem isPrefixOf_append_self (a b : List Char) : a.isPrefixOf (a ++ b) = true := by
  induction a with
  | nil => simp [List.isPrefixOf]
  | cons c a' ih => simp [List.isPrefixOf, ih]

theorem splitFirst_eq {sep : Char} :
    ∀ {l a b : List Char}, splitFirst sep l = some (a, b) → l = a ++ sep :: b := by
  intro l
  induction l with
  | nil =>
      intro a b hab
      simp [splitFirst] at hab
  | cons c t ih =>
      intro a b hab
      simp only [splitFirst] at hab
      split at hab
      · rename_i hc
        injection hab with hq
        rw [Prod.mk.injEq] at hq
        obtain ⟨ha, hb⟩ := hq
        subst ha
        subst hb
        subst hc
        rfl
      · rcases hs : splitFirst sep t with _ | q
        · rw [hs] at hab
          simp at hab
        · rw [hs] at hab
          simp only [Option.map_some'] at hab
          injection hab with hq
          rw [Prod.mk.injEq] at hq
          obtain ⟨ha, hb⟩ := hq
          subst ha
          subst hb
          have := ih hs
          simp [this]

theorem create_success_prefix {header : String} {m : MimeType}
    (hm : parseMIMEType header = some m) (hty : m.type = "multipart")
    (hsub : m.subtype = "form-data") :
    "multipart/form-data".data.isPrefixOf header.data = true := by
  unfold parseMIMEType at hm
  split at hm
  · simp at hm
  · rename_i ty rest h1
    have hsplit := splitFirst_eq h1
    split at hm
    · rename_i h2
      split at hm
      · simp at hm
      · injection hm with hmeq
        subst hmeq
        have hty' : ty = "multipart".data := congrArg String.data hty
        have hsub' : rest = "form-data".data := congrArg String.data hsub
        subst hty'
        subst hsub'
        have hfull : header.data = "multipart/form-data".data ++ [] := by
          rw [List.append_nil, hsplit]
          rfl
        rw [hfull]
        exact isPrefixOf_append_self _ _
    · rename_i sub pp h2
      split at hm
      · simp at hm
      · injection hm with hmeq
        subst hmeq
        have hty' : ty = "multipart".data := congrArg String.data hty
        have hsub' : sub = "form-data".data := congrArg String.data hsub
        have hrest := splitFirst_eq h2
        subst hty'
        subst hsub'
        subst hrest
        have hfull : header.data = "multipart/form-data".data ++ (';' :: pp) := by
          rw [hsplit]
          rfl
        rw [hfull]
        exact isPrefixOf_append_self _ _

/-! ## Claim theorems -/

set_option maxRecDepth 8000

/-- C1.  The claim asserts chunking independence: feeding the complete
single-field encoding one byte per `write` yields exactly one `boundary`,
one `header` and one `body` event, and any two-way chunk split yields the
same three events.  The source scans only the newly written chunk for
CRLF, so the per-byte feed buffers forever and emits no event at all,
while a split inside the first CRLF changes the emitted events; only the
whole input in a single `write` produces the three described events. -/
theorem fdp_per_byte_feed_emits_no_events :
    fdpEvents "multipart/form-data; boundary=X" 16
        ((strBytes "--X\r\nContent-Disposition: form-data; name=\"a\"\r\n\r\nhello\r\n--X--").map
          (fun b => [b])) = some []
    ∧ fdpEvents "multipart/form-data; boundary=X" 16
        [strBytes "--X\r\nContent-Disposition: form-data; name=\"a\"\r\n\r\nhello\r\n--X--"] =
        some [FDEvent.boundary (strBytes "X"),
          FDEvent.header (strBytes "Content-Disposition: form-data; name=\"a\""),
          FDEvent.body (strBytes "hello")]
    ∧ fdpEvents "multipart/form-data; boundary=X" 16
        [(strBytes "--X\r\nContent-Disposition: form-data; name=\"a\"\r\n\r\nhello\r\n--X--").take 4,
         (strBytes "--X\r\nContent-Disposition: form-data; name=\"a\"\r\n\r\nhello\r\n--X--").drop 4] ≠
      fdpEvents "multipart/form-data; boundary=X" 16
        [strBytes "--X\r\nContent-Disposition: form-data; name=\"a\"\r\n\r\nhello\r\n--X--"] := by
  refine ⟨by decide, by decide, by decide⟩

/-- C2.  The claim asserts that appending an existing name (up to case)
stores the new pair under the first match's original casing.  The source
reads the casing from `this[idx]`, an absent index property of the
`HeadersList` object (the entries live in `this.backer`), so the new pair
is stored with name `undefined` instead of `"Accept"`. -/
theorem headersList_append_stores_undefined_name :
    (HeadersList.empty.append "Accept" "a").1 = none
    ∧ ((HeadersList.empty.append "Accept" "a").2.append "accept" "b").1 = none
    ∧ ((HeadersList.empty.append "Accept" "a").2.append "accept" "b").2.backer
        = [some "Accept", some "a", none, some "b"] := by
  refine ⟨by decide, by decide, by decide⟩

/-- C3.  The claim asserts `get` returns `null` when nothing matches and
otherwise the matching values joined by `", "`.  The `null` case holds,
but the value loop reads `this[index + 1]`, an absent index property of
the object, so a single stored value comes back as the string
`"undefined"`, and after appending the same name twice the rescan hits
the `undefined` name slot stored by `append` and throws a `TypeError`
instead of returning `"v1, v2"`. -/
theorem headersList_get_returns_undefined :
    HeadersList.empty.get "a" = .ok none
    ∧ ((HeadersList.empty.append "a" "v1").2.get "a") = .ok (some "undefined")
    ∧ (((HeadersList.empty.append "a" "v1").2.append "a" "v2").2.get "a")
        = .error .typeError := by
  refine ⟨by decide, by decide, by decide⟩

/-- C4.  The claim asserts `sortAndCombine` returns the grouped and sorted
view; concretely `[("a","2, 3"), ("b","1")]` after appending `b`, `A`,
`a`.  The grouping loop reads `this[i]`, an absent index property of the
object, so on any non-empty list the very first iteration throws a
`TypeError`; only the empty list returns (an empty view). -/
theorem headersList_sortAndCombine_throws :
    ((((HeadersList.empty.append "b" "1").2.append "A" "2").2.append "a" "3").2).backer
        = [some "b", some "1", some "A", some "2", none, some "3"]
    ∧ ((((HeadersList.empty.append "b" "1").2.append "A" "2").2.append "a" "3").2).sortAndCombine
        = .error .typeError
    ∧ HeadersList.empty.sortAndCombine = .ok [] := by
  refine ⟨by decide, by decide, by decide⟩

/-- C9.  The claim asserts that on every reachable state `delete` removes
all case-insensitive matches without error, after which `has` is false in
any casing.  On a state reached by two appends of the same name in
different casings (which stores an `undefined` name slot), the rescan of
`delete` reads the `undefined` slot and throws a `TypeError`, leaving the
orphaned value pair behind; `has` then also throws.  On states without
`undefined` slots the deletion works (third conjunct). -/
theorem headersList_delete_throws_after_case_dup :
    (((HeadersList.empty.append "b" "1").2.append "B" "2").2.delete "b")
        = (some .typeError, ⟨[none, some "2"]⟩)
    ∧ ((((HeadersList.empty.append "b" "1").2.append "B" "2").2.delete "b").2.has "b")
        = .error .typeError
    ∧ ((HeadersList.empty.append "b" "1").2.delete "B") = (none, ⟨[]⟩) := by
  refine ⟨by decide, by decide, by decide⟩

/-- C6.  The claim asserts that in `Body` state a `write` whose chunk has
no CRLF while no rolling tail exists completes without error and without
events.  The source pushes the chunk to the line queue but then
unconditionally calls `this.#lastBytes.indexOf(...)` with `#lastBytes`
still `undefined`, so the call throws a `TypeError`.  The first conjunct
shows the scenario is reached by ordinary writes (state `Body`, no tail,
two events so far); the second shows the CRLF-free write throwing. -/
theorem fdp_body_write_without_crlf_throws :
    (fdpAfter "multipart/form-data; boundary=X" 16
        [strBytes "--X\r\nContent-Disposition: form-data; name=\"a\"\r\n\r\n"]).map
        (fun p => (p.state, p.lastBytes, p.currentChunk, p.events.length))
        = some (ParserState.Body, none, [], 2)
    ∧ (fdpAfter "multipart/form-data; boundary=X" 16
        [strBytes "--X\r\nContent-Disposition: form-data; name=\"a\"\r\n\r\n"]).map
        (fun p => FormDataParser.write 16 p (strBytes "abc"))
        = some (.error .typeError) := by
  refine ⟨by decide, by decide⟩

/-- C7 counterexample.  The claim says the remainder re-injected after a
body split starts at the boundary marker.  `writeBodyClaim` is the
`Body`-state step written exactly as the claim describes (remainder
`tail.drop i` starting at the marker); on a two-part body the described
behavior and the source behavior emit different events (the second
`boundary` event's payload differs), so the claim as stated is false. -/
theorem fdp_body_reinject_counterexample :
    (FormDataParser.write 16 ⟨ParserState.Body, [], [], strBytes "--X", none, []⟩
        (strBytes "hello\r\n--X\r\nNext: 1\r\n\r\nworld\r\n--X--")).map FormDataParser.events
        = .ok [FDEvent.body (strBytes "hello"), FDEvent.boundary (strBytes "X"),
            FDEvent.header (strBytes "Next: 1"), FDEvent.body (strBytes "world")]
    ∧ (writeBodyClaim 16 ⟨ParserState.Body, [], [], strBytes "--X", none, []⟩
        (strBytes "hello\r\n--X\r\nNext: 1\r\n\r\nworld\r\n--X--")).map FormDataParser.events
        = .ok [FDEvent.body (strBytes "hello"), FDEvent.boundary [],
            FDEvent.header (strBytes "Next: 1"), FDEvent.body (strBytes "world")]
    ∧ (FormDataParser.write 16 ⟨ParserState.Body, [], [], strBytes "--X", none, []⟩
        (strBytes "hello\r\n--X\r\nNext: 1\r\n\r\nworld\r\n--X--")).map FormDataParser.events
        ≠ (writeBodyClaim 16 ⟨ParserState.Body, [], [], strBytes "--X", none, []⟩
        (strBytes "hello\r\n--X\r\nNext: 1\r\n\r\nworld\r\n--X--")).map FormDataParser.events := by
  refine ⟨by decide, by decide, by decide⟩

/-- C7 (amended).  In `Body` state, when the updated rolling tail contains
the boundary marker first at index `i ≥ 2`, `write` emits exactly one
`body` event carrying the tail bytes before index `i − 2`, clears the
tail, transitions to `Boundary`, and re-injects the remainder starting at
index `i − 2` — the two bytes (the CRLF in well-formed input) that
precede the marker — so the marker sits at offset 2 of the re-injected
remainder, not at its start. -/
theorem fdp_body_split (f : Nat) (p : FormDataParser) (c t : List Nat) (i : Nat)
    (hst : p.state = .Body) (hcur : p.currentChunk = []) (hnxt : p.nextChunk = [])
    (ht : updateTail p.lastBytes c = some t)
    (hi : subIndex p.boundary t = some i) (h2 : 2 ≤ i) :
    FormDataParser.write (f + 1 + 1 + 1) p c =
      FormDataParser.write f
        ⟨.Boundary, [], [], p.boundary, none,
          p.events ++ [FDEvent.body (t.take (i - 2))]⟩
        (t.drop (i - 2))
    ∧ p.boundary.isPrefixOf ((t.drop (i - 2)).drop 2) = true := by
  obtain ⟨st, cur, nxt, bnd, last, evs⟩ := p
  simp only at hst hcur hnxt ht hi ⊢
  subst hst
  subst hcur
  subst hnxt
  have hlen := subIndex_le hi
  have hend : jsEndIndex t.length ((i : Int) - 2) = i - 2 := by
    unfold jsEndIndex
    rw [if_neg (by omega)]
    have h1 : ((i : Int) - 2).toNat = i - 2 := by omega
    rw [h1]
    omega
  have htake : (t.take (i - 2)).length = i - 2 := by
    rw [List.length_take]
    omega
  constructor
  · simp only [FormDataParser.write, ht, hi, hend, htake, List.nil_append]
    simp only [FormDataParser.parse, combineChunks_single]
    simp only [FormDataParser.writeAll]
    cases hw : FormDataParser.write f
        ⟨.Boundary, [], [], bnd, none, evs ++ [FDEvent.body (t.take (i - 2))]⟩
        (t.drop (i - 2)) with
    | error e => simp [hw]
    | ok q => simp [hw, FormDataParser.writeAll]
  · have hpre := subIndex_isPrefixOf hi
    have hdd : (t.drop (i - 2)).drop 2 = t.drop i := by
      rw [List.drop_drop]
      have heq : i - 2 + 2 = i := by omega
      rw [heq]
    rw [hdd]
    exact hpre

/-- C5.  For any validity predicates, any view state and any arguments:
with the guard `immutable` and valid arguments, `append`, `set` and
`delete` all fail with the guard error and leave the view (hence its
header list) unchanged; an invalid name fails with `InvalidArgument`
before any mutation and regardless of the guard (so before the guard
check); a valid name with an invalid normalized value likewise fails with
`InvalidArgument` on the value-bearing operations. -/
theorem headers_immutable_and_validation_order
    (vn vv : String → Bool) (h : Headers) (name value : String) :
    (h.guard = .immutable → vn name = true → vv (headerValueNormalize value) = true →
        Headers.append vn vv h name value = (some .immutableGuard, h)
        ∧ Headers.set vn vv h name value = (some .immutableGuard, h)
        ∧ Headers.delete vn h name = (some .immutableGuard, h))
    ∧ (vn name = false →
        Headers.append vn vv h name value = (some .invalidArgument, h)
        ∧ Headers.set vn vv h name value = (some .invalidArgument, h)
        ∧ Headers.delete vn h name = (some .invalidArgument, h))
    ∧ (vn name = true → vv (headerValueNormalize value) = false →
        Headers.append vn vv h name value = (some .invalidArgument, h)
        ∧ Headers.set vn vv h name value = (some .invalidArgument, h)) := by
  refine ⟨?_, ?_, ?_⟩
  · intro hg hn hv
    refine ⟨?_, ?_, ?_⟩ <;>
      simp [Headers.append, Headers.set, Headers.delete, hg, hn, hv]
  · intro hn
    refine ⟨?_, ?_, ?_⟩ <;>
      simp [Headers.append, Headers.set, Headers.delete, hn]
  · intro hn hv
    refine ⟨?_, ?_⟩ <;>
      simp [Headers.append, Headers.set, hn, hv]

/-- Witness for C5: a concrete immutable view rejecting all three
mutators unchanged, and a concrete invalid name rejected with
`InvalidArgument` under a non-immutable guard. -/
theorem headers_immutable_and_validation_order_witness :
    (Headers.append (fun _ => true) (fun _ => true) ⟨⟨[]⟩, .immutable⟩ "a" "b"
        = (some .immutableGuard, ⟨⟨[]⟩, .immutable⟩)
      ∧ Headers.set (fun _ => true) (fun _ => true) ⟨⟨[]⟩, .immutable⟩ "a" "b"
        = (some .immutableGuard, ⟨⟨[]⟩, .immutable⟩)
      ∧ Headers.delete (fun _ => true) ⟨⟨[]⟩, .immutable⟩ "a"
        = (some .immutableGuard, ⟨⟨[]⟩, .immutable⟩))
    ∧ (Headers.append (fun _ => false) (fun _ => true) ⟨⟨[]⟩, .guardNone⟩ "a" "b"
        = (some .invalidArgument, ⟨⟨[]⟩, .guardNone⟩)
      ∧ Headers.set (fun _ => false) (fun _ => true) ⟨⟨[]⟩, .guardNone⟩ "a" "b"
        = (some .invalidArgument, ⟨⟨[]⟩, .guardNone⟩)
      ∧ Headers.delete (fun _ => false) ⟨⟨[]⟩, .guardNone⟩ "a"
        = (some .invalidArgument, ⟨⟨[]⟩, .guardNone⟩)) :=
  ⟨(headers_immutable_and_validation_order (fun _ => true) (fun _ => true)
      ⟨⟨[]⟩, .immutable⟩ "a" "b").1 rfl rfl rfl,
    (headers_immutable_and_validation_order (fun _ => false) (fun _ => true)
      ⟨⟨[]⟩, .guardNone⟩ "a" "b").2.1 rfl⟩

/-- C8.  Construction succeeds exactly when the (spec-modelled) MIME
parse of the header succeeds with essence `multipart/form-data` and a
`boundary` parameter; in particular `text/plain` and a missing boundary
fail while `multipart/form-data; boundary=X` succeeds.  On failure no
parser value exists (the `Except` is an error), so no partial object is
usable. -/
theorem fdp_create_characterization :
    (∀ header : String,
        exceptIsOk (FormDataParser.create header) = true ↔
          ∃ m : MimeType, parseMIMEType header = some m ∧ m.type = "multipart"
            ∧ m.subtype = "form-data" ∧ (paramsGet m.parameters "boundary").isSome = true)
    ∧ exceptIsOk (FormDataParser.create "text/plain") = false
    ∧ exceptIsOk (FormDataParser.create "multipart/form-data") = false
    ∧ exceptIsOk (FormDataParser.create "multipart/form-data; boundary=X") = true := by
  refine ⟨?_, by decide, by decide, by decide⟩
  intro header
  constructor
  · intro hok
    rcases hpre : ("multipart/form-data".data.isPrefixOf header.data) with _ | _
    · simp [FormDataParser.create, hpre, exceptIsOk] at hok
    · rcases hm : parseMIMEType header with _ | m
      · simp [FormDataParser.create, hpre, hm, exceptIsOk] at hok
      · by_cases hess : m.type ≠ "multipart" ∨ m.subtype ≠ "form-data"
        · simp [FormDataParser.create, hpre, hm, hess, exceptIsOk] at hok
        · push_neg at hess
          rcases hb : paramsGet m.parameters "boundary" with _ | b
          · simp [FormDataParser.create, hpre, hm, hess.1, hess.2, hb, exceptIsOk] at hok
          · exact ⟨m, rfl, hess.1, hess.2, by rw [hb]; rfl⟩
  · rintro ⟨m, hm, hty, hsub, hb⟩
    have hpre : "multipart/form-data".data.isPrefixOf header.data = true :=
      create_success_prefix hm hty hsub
    rcases hbv : paramsGet m.parameters "boundary" with _ | b
    · rw [hbv] at hb
      simp at hb
    · simp [FormDataParser.create, hpre, hm, hty, hsub, hbv, exceptIsOk]

/-- Witness for C8: the success direction of the characterization applied
to the concrete header `multipart/form-data; boundary=X`. -/
theorem fdp_create_characterization_witness :
    exceptIsOk (FormDataParser.create "multipart/form-data; boundary=X") = true :=
  (fdp_create_characterization.1 "multipart/form-data; boundary=X").mpr
    ⟨⟨"multipart", "form-data", [("boundary", "X")]⟩, by decide, rfl, rfl, by decide⟩

/-- C10.  On every state reachable by the constructor and the public
operations (including the states retained when an operation throws), the
flat backing array has even length and every odd index holds a genuine
value string, i.e. every name slot at an even index is immediately
followed by its value slot — no operation leaves a name without its
paired value. -/
theorem headersList_backing_invariant (hl : HeadersList) (h : hl.Reachable) :
    hl.backer.length % 2 = 0
    ∧ ∀ i (hi : i < hl.backer.length), i % 2 = 1 → (hl.backer.get ⟨i, hi⟩).isSome = true := by
  have hp := reachable_paired h
  exact ⟨hp.length_even, hp.odd_isSome⟩

/-- Witness for C10: the invariant at the concrete state reached by two
appends (the second a case-insensitive duplicate) followed by a delete
that throws mid-way. -/
theorem headersList_backing_invariant_witness :
    ((((HeadersList.empty.append "A" "1").2.append "a" "2").2.delete "a").2.backer.length % 2 = 0
    ∧ ∀ i (hi : i <
        (((HeadersList.empty.append "A" "1").2.append "a" "2").2.delete "a").2.backer.length),
        i % 2 = 1 →
        ((((HeadersList.empty.append "A" "1").2.append "a" "2").2.delete "a").2.backer.get
          ⟨i, hi⟩).isSome = true) :=
  headersList_backing_invariant _
    (HeadersList.Reachable.del "a"
      (HeadersList.Reachable.append "a" "2"
        (HeadersList.Reachable.append "A" "1" HeadersList.Reachable.empty)))

/-- Witness for C7 (amended): the split equation and the marker-offset
fact at the concrete tail `hello\r\n--X--` with the boundary `--X` found
at index 7. -/
theorem fdp_body_split_witness :
    FormDataParser.write (13 + 1 + 1 + 1)
        ⟨ParserState.Body, [], [], strBytes "--X", none, []⟩ (strBytes "hello\r\n--X--") =
      FormDataParser.write 13
        ⟨.Boundary, [], [], strBytes "--X", none,
          [FDEvent.body ((strBytes "hello\r\n--X--").take (7 - 2))]⟩
        ((strBytes "hello\r\n--X--").drop (7 - 2))
    ∧ (strBytes "--X").isPrefixOf (((strBytes "hello\r\n--X--").drop (7 - 2)).drop 2) = true := by
  exact fdp_body_split 13 ⟨ParserState.Body, [], [], strBytes "--X", none, []⟩
    (strBytes "hello\r\n--X--") (strBytes "hello\r\n--X--") 7 rfl rfl rfl
    (by decide) (by decide) (by decide)
